import Mathlib

/-!
Shallow embedding of `src/msg_split.py` (functions `validate_input` and
`split_message` with its nested helpers `create_wrapper_start`,
`create_wrapper_end`, `is_unsplittable` and `process_element`).

HTML parsing is performed by BeautifulSoup, an external collaborator: the
embedding therefore operates on the parsed document, a list of `Node`s
(`soup.children`), exactly as `split_message` does after line 59.  String
lengths are code-point counts, matching Python `len` on `str`.  Python's
`str.strip()`, `str.rstrip()` and `str.split()` are embedded as `pyStrip`,
`pyRstrip` and `pyWords` over the character list of the string.

The only exception ever raised on the traversal path of `split_message` is
`HTMLFragmentationError("Unsplittable element exceeds max_len")` (raised at
line 100, and at the unreachable line 121, with that one message), so the
error type of the embedding is the one-constructor `FragError`.
-/

/-- Whitespace test used by Python `strip`/`split` (ASCII fragment). -/
def isSpace (c : Char) : Bool := c.isWhitespace

/-- Python `s.strip()`: drop leading and trailing whitespace. -/
def pyStrip (s : String) : String :=
  ⟨((s.data.dropWhile isSpace).reverse.dropWhile isSpace).reverse⟩

/-- Python `s.rstrip()`: drop trailing whitespace. -/
def pyRstrip (s : String) : String :=
  ⟨(s.data.reverse.dropWhile isSpace).reverse⟩

/-- Tokenizer worker for `pyWords`; `cur` is the reversed current word. -/
def wordsAux : List Char → List Char → List String
  | [], cur => if cur = [] then [] else [⟨cur.reverse⟩]
  | c :: cs, cur =>
    if isSpace c then
      if cur = [] then wordsAux cs [] else ⟨cur.reverse⟩ :: wordsAux cs []
    else wordsAux cs (c :: cur)

/-- Python `s.split()` with no argument: whitespace-delimited non-empty words. -/
def pyWords (s : String) : List String := wordsAux s.data []

/-- Parsed HTML node (BeautifulSoup `NavigableString` or `Tag`): a text node,
or an element with tag name, ordered attributes, and ordered children. -/
inductive Node where
  | text : String → Node
  | element : (name : String) → (attrs : List (String × String)) → (children : List Node) → Node
deriving Repr

/-- Name and attributes of a tag kept on the wrapper stack (`parent_tags`). -/
abbrev TagInfo := String × List (String × String)

/-- Attribute block of an opening tag: `' ' + ' '.join(f'{k}="{v}"')` when
the attribute mapping is non-empty, as in `create_wrapper_start` line 74-76. -/
def attrsStr (attrs : List (String × String)) : String :=
  if attrs.isEmpty then ""
  else " " ++ String.intercalate " " (attrs.map fun kv => kv.1 ++ "=\"" ++ kv.2 ++ "\"")

/-- Opening tag `<name attrs>` as rendered by `create_wrapper_start`. -/
def openTag (name : String) (attrs : List (String × String)) : String :=
  "<" ++ name ++ attrsStr attrs ++ ">"

/-- Closing tag `</name>` as rendered by `create_wrapper_end`. -/
def closeTag (name : String) : String := "</" ++ name ++ ">"

mutual
/-- BeautifulSoup `str(element)`: a text node prints its string, a tag prints
opening tag, children in order, closing tag. -/
def serialize : Node → String
  | .text s => s
  | .element name attrs children =>
      openTag name attrs ++ serializeList children ++ closeTag name
  termination_by structural n => n

/-- Concatenated serialization of a list of sibling nodes. -/
def serializeList : List Node → String
  | [] => ""
  | c :: cs => serialize c ++ serializeList cs
  termination_by structural l => l
end

/-- Function `create_wrapper_start` (lines 70-78): opening tags in stack order. -/
def wrapperStart : List TagInfo → String
  | [] => ""
  | t :: ts => openTag t.1 t.2 ++ wrapperStart ts

/-- Function `create_wrapper_end` (lines 80-82): closing tags in reversed order. -/
def wrapperEnd : List TagInfo → String
  | [] => ""
  | t :: ts => wrapperEnd ts ++ closeTag t.1

/-- Tag names treated as unsplittable by `is_unsplittable` (line 97). -/
def atomicNames : List String := ["a", "code", "b", "i", "strong", "em"]

/-- The single exception raised on `split_message`'s traversal path:
`HTMLFragmentationError("Unsplittable element exceeds max_len")`. -/
inductive FragError where
  | unsplittable
deriving DecidableEq, Repr

/-- Greedy word accumulation loop shared by lines 165-171 and 192-198 of
`process_element`: while `len(current + word + ' ') <= limit`, append
`word + ' '` to `current`; otherwise flush `current.rstrip()` (when non-empty)
and restart from `word + ' '`.  Returns the flushed chunks (un-wrapped) and
the final value of `current`. -/
def greedyWords (limit : Int) : List String → String → List String × String
  | [], cur => ([], cur)
  | w :: ws, cur =>
    if (cur.length + w.length + 1 : Int) ≤ limit then
      greedyWords limit ws (cur ++ w ++ " ")
    else if cur = "" then
      greedyWords limit ws (w ++ " ")
    else
      (pyRstrip cur :: (greedyWords limit ws (w ++ " ")).1,
        (greedyWords limit ws (w ++ " ")).2)

/-- Lines 154-160 of `process_element`: for each fragment of the recursive
call, append it wrapped when the wrapped form fits `max_len`; otherwise append
the whole recomputed fragment list (`child_parts`, equal to the original list
because `process_element` is pure), each part wrapped, with no length check. -/
def pushChildFrags (m : Int) (ws we : String) (allParts : List String) :
    List String → List String → List String
  | [], frags => frags
  | f :: fs, frags =>
    if ((ws ++ f ++ we).length : Int) ≤ m then
      pushChildFrags m ws we allParts fs (frags ++ [ws ++ f ++ we])
    else
      pushChildFrags m ws we allParts fs (frags ++ allParts.map fun p => ws ++ p ++ we)

mutual
/-- Function `process_element` (lines 104-203) with `max_len = m`.
Unsplittable elements raise when longer than `max_len` and are otherwise kept
whole; other elements are kept whole when they fit, and are otherwise split
over their children with the wrapper stack `parent_tags + [element]`; text
nodes are stripped and greedily word-wrapped against `max_len`. -/
def processElement (m : Int) (parentTags : List TagInfo) : Node → Except FragError (List String)
  | .text s =>
    let t := pyStrip s
    if t = "" then .ok []
    else if (t.length : Int) ≤ m then .ok [t]
    else
      let res := greedyWords m (pyWords t) ""
      .ok (res.1 ++ (if res.2 = "" then [] else [pyRstrip res.2]))
  | .element name attrs children =>
    if name ∈ atomicNames then
      if m < ((serialize (.element name attrs children)).length : Int) then
        .error .unsplittable
      else .ok [serialize (.element name attrs children)]
    else if ((serialize (.element name attrs children)).length : Int) ≤ m then
      .ok [serialize (.element name attrs children)]
    else
      let ctags := parentTags ++ [(name, attrs)]
      let ws := wrapperStart ctags
      let we := wrapperEnd ctags
      let avail : Int := m - ws.length - we.length
      match processChildren m ws we avail ctags children [] "" with
      | .error e => .error e
      | .ok (frags, cur) =>
        .ok (if cur = "" then frags else frags ++ [ws ++ pyRstrip cur ++ we])
  termination_by structural n => n

/-- Children loop of `process_element` (lines 139-172), carrying the emitted
`fragments` and the accumulator `current`.  Whitespace-only children are
skipped; a child whose stripped serialization still fits `available_len` is
appended to the accumulator; an overflowing child first flushes the
accumulator (un-rstripped, line 150), then is handled standalone: a tag child
recurses and its fragments pass through `pushChildFrags`, a text child is
word-wrapped against `available_len` with every flushed chunk wrapped; in
both cases line 172 resets the accumulator to the empty string. -/
def processChildren (m : Int) (ws we : String) (avail : Int) (ctags : List TagInfo) :
    List Node → List String → String → Except FragError (List String × String)
  | [], frags, cur => .ok (frags, cur)
  | c :: rest, frags, cur =>
    let cstr := pyStrip (serialize c)
    if cstr = "" then processChildren m ws we avail ctags rest frags cur
    else if (cur.length + cstr.length : Int) ≤ avail then
      processChildren m ws we avail ctags rest frags (cur ++ cstr)
    else
      let frags1 := if cur = "" then frags else frags ++ [ws ++ cur ++ we]
      match c with
      | .element cn ca cc =>
        match processElement m ctags (.element cn ca cc) with
        | .error e => .error e
        | .ok childFrags =>
          processChildren m ws we avail ctags rest
            (pushChildFrags m ws we childFrags childFrags frags1) ""
      | .text _ =>
        let res := greedyWords avail (pyWords cstr) ""
        processChildren m ws we avail ctags rest
          (frags1 ++ res.1.map fun chunk => ws ++ chunk ++ we) ""
  termination_by structural l => l
end

/-- Lines 216-222 of `split_message`: merge the fragments produced for one
top-level node into the running output; `acc` is the list of fragments already
yielded and `cur` is `current_fragment`. -/
def mergeFrags (m : Int) : List String → String → List String → List String × String
  | [], cur, acc => (acc, cur)
  | f :: fs, cur, acc =>
    if (cur.length + f.length : Int) ≤ m then mergeFrags m fs (cur ++ f) acc
    else if cur = "" then mergeFrags m fs f acc
    else mergeFrags m fs f (acc ++ [cur])

/-- Top-level loop of `split_message` (lines 205-225): skip nodes whose
serialization strips to the empty string, set `root_tags = [element]` when the
node is a tag (and keep the previous `root_tags` for text nodes), process the
node with `process_element`, and merge its fragments into the output. -/
def topLoop (m : Int) : List Node → List TagInfo → String → List String → Except FragError (List String)
  | [], _, cur, acc => .ok (if cur = "" then acc else acc ++ [cur])
  | .text s :: rest, rootTags, cur, acc =>
    if pyStrip (serialize (.text s)) = "" then topLoop m rest rootTags cur acc
    else
      match processElement m rootTags (.text s) with
      | .error e => .error e
      | .ok frags =>
        topLoop m rest rootTags (mergeFrags m frags cur acc).2 (mergeFrags m frags cur acc).1
  | .element name attrs cc :: rest, rootTags, cur, acc =>
    if pyStrip (serialize (.element name attrs cc)) = "" then topLoop m rest rootTags cur acc
    else
      match processElement m [(name, attrs)] (.element name attrs cc) with
      | .error e => .error e
      | .ok frags =>
        topLoop m rest [(name, attrs)]
          (mergeFrags m frags cur acc).2 (mergeFrags m frags cur acc).1

/-- Function `split_message` (lines 46-225) on a parsed document
(`soup.children`): the ordered list of fragments the generator yields, or the
exception it raises. -/
def splitMessage (m : Int) (doc : List Node) : Except FragError (List String) :=
  topLoop m doc [] "" []

/-- Function `validate_input` (lines 23-44): the `isinstance` checks are
static typing, `max_len < 1` raises `ValueError("max_len must be positive")`,
and the BeautifulSoup constructor is assumed non-raising (lenient parser
contract), so all remaining inputs validate.  `split_message` never calls
this function. -/
def validateInput (_source : String) (maxLen : Int) : Except String Unit :=
  if maxLen < 1 then .error "max_len must be positive" else .ok ()

/-- Number of (possibly overlapping) occurrences of `pat` in a character list. -/
def countOccur (pat : List Char) : List Char → Nat
  | [] => 0
  | c :: rest => (if pat.isPrefixOf (c :: rest) then 1 else 0) + countOccur pat rest

mutual
/-- Whether the node, or some node nested inside it, is an element whose tag
name is on `is_unsplittable`'s whitelist and whose full serialization is
longer than `max_len = m` (the condition of the raise at line 100). -/
def hasOversizedAtomic (m : Int) : Node → Bool
  | .text _ => false
  | .element name attrs cs =>
    (decide (name ∈ atomicNames) &&
      decide (m < ((serialize (.element name attrs cs)).length : Int))) ||
    hasOversizedAtomicList m cs
  termination_by structural n => n

/-- List version of `hasOversizedAtomic` over sibling nodes. -/
def hasOversizedAtomicList (m : Int) : List Node → Bool
  | [] => false
  | c :: cs => hasOversizedAtomic m c || hasOversizedAtomicList m cs
  termination_by structural l => l
end

/-- Character allowed inside tag names and attributes of a parsed tree:
anything except the tag delimiters. -/
def tagCharOk (c : Char) : Bool := c != '<' && c != '>'

mutual
/-- Parser-contract cleanliness: text nodes contain no `<` (the parser would
have turned it into markup), and tag names and attributes contain no tag
delimiters.  BeautifulSoup guarantees this for every tree it produces. -/
def cleanNode : Node → Bool
  | .text s => s.data.all fun c => c != '<'
  | .element name attrs cs =>
    name.data.all tagCharOk &&
    (attrs.all fun kv => kv.1.data.all tagCharOk && kv.2.data.all tagCharOk) &&
    cleanList cs
  termination_by structural n => n

/-- List version of `cleanNode` over sibling nodes. -/
def cleanList : List Node → Bool
  | [] => true
  | c :: cs => cleanNode c && cleanList cs
  termination_by structural l => l
end

/-- Top-level node that fits the budget on its own: an element whose full
serialization is at most `m`, or a text node all of whose words are at most
`m` long. -/
def flatFits (m : Int) : Node → Bool
  | .text s => (pyWords (pyStrip s)).all fun w => decide ((w.length : Int) ≤ m)
  | .element name attrs cs =>
    decide (((serialize (.element name attrs cs)).length : Int) ≤ m)

/-- Tag-balance of an HTML string, read as a Dyck language over the tag
alphabet the serializer and wrapper builder emit: tag-free runs are balanced,
balanced strings concatenate, and wrapping a balanced string in one matching
opening/closing tag pair keeps it balanced.  Every opening tag in such a
string has its matching closing tag within the string. -/
inductive TagBalanced : String → Prop where
  | tagFree (s : String) : (∀ c ∈ s.data, c ≠ '<') → TagBalanced s
  | append {s t : String} : TagBalanced s → TagBalanced t → TagBalanced (s ++ t)
  | wrap {s : String} (name : String) (attrs : List (String × String)) :
      TagBalanced s → TagBalanced (openTag name attrs ++ s ++ closeTag name)

/-- Contains at least one non-whitespace character (so in particular is not
the empty string). -/
def hasInk (s : String) : Prop := ∃ c ∈ s.data, isSpace c = false

/-! Basic facts about the string helpers and the serializer. -/

theorem strEq_of_data {s t : String} (h : s.data = t.data) : s = t := by
  cases s; cases t; exact congrArg String.mk h

theorem dropWhile_eq_self_of_head {p : Char → Bool} {l : List Char}
    (h : ∀ c, l.head? = some c → p c = false) : l.dropWhile p = l := by
  cases l with
  | nil => rfl
  | cons x xs => rw [List.dropWhile_cons, h x rfl]; simp

theorem dropWhile_eq_self_of_all {p : Char → Bool} {l : List Char}
    (h : ∀ c ∈ l, p c = false) : l.dropWhile p = l := by
  induction l with
  | nil => rfl
  | cons x xs ih =>
    rw [List.dropWhile_cons, h x (by simp)]
    simp only [Bool.false_eq_true, if_false]

theorem mem_dropWhile_of_mem {p : Char → Bool} {c : Char} (hc : p c = false) :
    ∀ {l : List Char}, c ∈ l → c ∈ l.dropWhile p := by
  intro l
  induction l with
  | nil => intro h; cases h
  | cons x xs ih =>
    intro h
    rw [List.dropWhile_cons]
    by_cases hx : p x = true
    · rw [hx]
      simp only [if_true]
      rcases List.mem_cons.mp h with h1 | h2
      · subst h1; rw [hc] at hx; cases hx
      · exact ih h2
    · rw [Bool.not_eq_true] at hx
      rw [hx]
      simpa using h

theorem head?_dropWhile_false {p : Char → Bool} :
    ∀ (l : List Char) {c : Char}, (l.dropWhile p).head? = some c → p c = false := by
  intro l
  induction l with
  | nil => intro c h; cases h
  | cons x xs ih =>
    intro c h
    rw [List.dropWhile_cons] at h
    by_cases hx : p x = true
    · rw [hx] at h; simp only [if_true] at h; exact ih h
    · rw [Bool.not_eq_true] at hx
      rw [hx] at h
      simp only [Bool.false_eq_true, if_false, List.head?_cons, Option.some.injEq] at h
      subst h; exact hx

theorem pyStrip_eq_self {s : String}
    (h1 : ∀ c, s.data.head? = some c → isSpace c = false)
    (h2 : ∀ c, s.data.getLast? = some c → isSpace c = false) :
    pyStrip s = s := by
  apply strEq_of_data
  show ((s.data.dropWhile isSpace).reverse.dropWhile isSpace).reverse = s.data
  rw [dropWhile_eq_self_of_head h1,
    dropWhile_eq_self_of_head (fun c hc => h2 c (by rwa [List.head?_reverse] at hc)),
    List.reverse_reverse]

theorem pyRstrip_eq_self {s : String}
    (h : ∀ c, s.data.getLast? = some c → isSpace c = false) : pyRstrip s = s := by
  apply strEq_of_data
  show (s.data.reverse.dropWhile isSpace).reverse = s.data
  rw [dropWhile_eq_self_of_head (fun c hc => h c (by rwa [List.head?_reverse] at hc)),
    List.reverse_reverse]

theorem pyRstrip_length_le (s : String) : (pyRstrip s).length ≤ s.length := by
  show (s.data.reverse.dropWhile isSpace).reverse.length ≤ s.data.length
  rw [List.length_reverse]
  calc (s.data.reverse.dropWhile isSpace).length ≤ s.data.reverse.length :=
        (List.dropWhile_sublist _).length_le
    _ = s.data.length := List.length_reverse _

theorem mem_pyRstrip {s : String} {c : Char} (h : c ∈ s.data) (hc : isSpace c = false) :
    c ∈ (pyRstrip s).data := by
  show c ∈ (s.data.reverse.dropWhile isSpace).reverse
  rw [List.mem_reverse]
  exact mem_dropWhile_of_mem hc (by rwa [List.mem_reverse])

theorem mem_of_mem_pyRstrip {s : String} {c : Char} (h : c ∈ (pyRstrip s).data) :
    c ∈ s.data := by
  have h' : c ∈ s.data.reverse.dropWhile isSpace := by
    rwa [← List.mem_reverse]
  have := (List.dropWhile_sublist (l := s.data.reverse) (p := isSpace)).mem h'
  rwa [List.mem_reverse] at this

theorem mem_of_mem_pyStrip {s : String} {c : Char} (h : c ∈ (pyStrip s).data) :
    c ∈ s.data := by
  have h1 : c ∈ (s.data.dropWhile isSpace).reverse.dropWhile isSpace := by
    rwa [← List.mem_reverse]
  have h2 := (List.dropWhile_sublist (l := (s.data.dropWhile isSpace).reverse)
    (p := isSpace)).mem h1
  rw [List.mem_reverse] at h2
  exact (List.dropWhile_sublist (l := s.data) (p := isSpace)).mem h2

theorem pyStrip_ink {s : String} (h : pyStrip s ≠ "") :
    ∃ c ∈ (pyStrip s).data, isSpace c = false := by
  have hne : (pyStrip s).data ≠ [] := fun hd => h (strEq_of_data hd)
  cases hY : (s.data.dropWhile isSpace).reverse.dropWhile isSpace with
  | nil => exact absurd (by show ((_ : List Char)).reverse = _; rw [hY]; rfl) hne
  | cons y ys =>
    refine ⟨y, ?_, head?_dropWhile_false _ (by rw [hY]; rfl)⟩
    show y ∈ ((s.data.dropWhile isSpace).reverse.dropWhile isSpace).reverse
    rw [hY]
    simp

theorem pyStrip_getLast_false {s : String} {c : Char}
    (h : (pyStrip s).data.getLast? = some c) : isSpace c = false := by
  have h' : ((s.data.dropWhile isSpace).reverse.dropWhile isSpace).head? = some c := by
    have hy : ((s.data.dropWhile isSpace).reverse.dropWhile isSpace).reverse.getLast? =
        some c := h
    rwa [List.getLast?_reverse] at hy
  exact head?_dropWhile_false _ h'

theorem serialize_text_def (s : String) : serialize (.text s) = s := rfl

theorem serialize_element_def (n : String) (a : List (String × String)) (cs : List Node) :
    serialize (.element n a cs) = openTag n a ++ serializeList cs ++ closeTag n := rfl

theorem serializeList_nil : serializeList [] = "" := rfl

theorem serializeList_cons (c : Node) (cs : List Node) :
    serializeList (c :: cs) = serialize c ++ serializeList cs := rfl

theorem openTag_data (n : String) (a : List (String × String)) :
    (openTag n a).data = '<' :: (n.data ++ (attrsStr a).data ++ ['>']) := by
  show (("<" ++ n ++ attrsStr a ++ ">")).data = _
  simp only [String.data_append]
  simp [List.append_assoc]

theorem closeTag_data (n : String) :
    (closeTag n).data = ('<' :: '/' :: n.data) ++ ['>'] := by
  show (("</" ++ n ++ ">")).data = _
  simp only [String.data_append]
  simp

theorem serialize_element_head (n : String) (a : List (String × String)) (cs : List Node) :
    (serialize (.element n a cs)).data.head? = some '<' := by
  rw [serialize_element_def, String.data_append, String.data_append, openTag_data]
  simp

theorem serialize_element_getLast (n : String) (a : List (String × String)) (cs : List Node) :
    (serialize (.element n a cs)).data.getLast? = some '>' := by
  rw [serialize_element_def, String.data_append, String.data_append, closeTag_data,
    ← List.append_assoc]
  exact List.getLast?_concat _

theorem serialize_element_strip (n : String) (a : List (String × String)) (cs : List Node) :
    pyStrip (serialize (.element n a cs)) = serialize (.element n a cs) := by
  apply pyStrip_eq_self
  · intro c hc
    rw [serialize_element_head] at hc
    cases hc
    rfl
  · intro c hc
    rw [serialize_element_getLast] at hc
    cases hc
    rfl

theorem serialize_element_ne_empty (n : String) (a : List (String × String)) (cs : List Node) :
    serialize (.element n a cs) ≠ "" := by
  intro h
  have hh := serialize_element_head n a cs
  rw [h] at hh
  cases hh

theorem serialize_element_ink (n : String) (a : List (String × String)) (cs : List Node) :
    ∃ c ∈ (serialize (.element n a cs)).data, isSpace c = false := by
  refine ⟨'<', ?_, rfl⟩
  rw [serialize_element_def, String.data_append, String.data_append, openTag_data]
  simp

theorem wordsAux_sound :
    ∀ (l cur : List Char), (∀ c ∈ cur, isSpace c = false) →
      ∀ w ∈ wordsAux l cur, w.data ≠ [] ∧ ∀ c ∈ w.data, isSpace c = false := by
  intro l
  induction l with
  | nil =>
    intro cur hcur w hw
    rw [wordsAux] at hw
    by_cases h : cur = []
    · rw [if_pos h] at hw; cases hw
    · rw [if_neg h] at hw
      rcases List.mem_singleton.mp hw with rfl
      constructor
      · show cur.reverse ≠ []
        simpa using h
      · intro c hc
        exact hcur c (by simpa using hc)
  | cons x xs ih =>
    intro cur hcur w hw
    rw [wordsAux] at hw
    by_cases hx : isSpace x = true
    · rw [if_pos hx] at hw
      by_cases h : cur = []
      · rw [if_pos h] at hw
        exact ih [] (by simp) w hw
      · rw [if_neg h] at hw
        rcases List.mem_cons.mp hw with rfl | hmem
        · constructor
          · show cur.reverse ≠ []
            simpa using h
          · intro c hc
            exact hcur c (by simpa using hc)
        · exact ih [] (by simp) w hmem
    · rw [Bool.not_eq_true] at hx
      rw [if_neg (by simp [hx])] at hw
      refine ih (x :: cur) ?_ w hw
      intro c hc
      rcases List.mem_cons.mp hc with rfl | hmem
      · exact hx
      · exact hcur c hmem

theorem pyWords_sound {s : String} :
    ∀ w ∈ pyWords s, w ≠ "" ∧ ∀ c ∈ w.data, isSpace c = false := by
  intro w hw
  have h := wordsAux_sound s.data [] (by simp) w hw
  exact ⟨fun he => h.1 (by simp [he]), h.2⟩

theorem wordsAux_chars {P : Char → Prop} :
    ∀ (l cur : List Char), (∀ c ∈ l, P c) → (∀ c ∈ cur, P c) →
      ∀ w ∈ wordsAux l cur, ∀ c ∈ w.data, P c := by
  intro l
  induction l with
  | nil =>
    intro cur _ hcur w hw c hc
    rw [wordsAux] at hw
    by_cases h : cur = []
    · rw [if_pos h] at hw; cases hw
    · rw [if_neg h] at hw
      rcases List.mem_singleton.mp hw with rfl
      exact hcur c (by simpa using hc)
  | cons x xs ih =>
    intro cur hl hcur w hw c hc
    rw [wordsAux] at hw
    have hxs : ∀ c ∈ xs, P c := fun c hcm => hl c (by simp [hcm])
    by_cases hx : isSpace x = true
    · rw [if_pos hx] at hw
      by_cases h : cur = []
      · rw [if_pos h] at hw
        exact ih [] hxs (by simp) w hw c hc
      · rw [if_neg h] at hw
        rcases List.mem_cons.mp hw with rfl | hmem
        · exact hcur c (by simpa using hc)
        · exact ih [] hxs (by simp) w hmem c hc
    · rw [Bool.not_eq_true] at hx
      rw [if_neg (by simp [hx])] at hw
      refine ih (x :: cur) hxs ?_ w hw c hc
      intro d hd
      rcases List.mem_cons.mp hd with rfl | hmem
      · exact hl d (by simp)
      · exact hcur d hmem

theorem pyWords_chars {P : Char → Prop} {s : String} (hs : ∀ c ∈ s.data, P c) :
    ∀ w ∈ pyWords s, ∀ c ∈ w.data, P c :=
  wordsAux_chars s.data [] hs (by simp)

/-- C9.  Lemma: the top-level loop yields only the pending accumulator when
every remaining node's serialization strips to the empty string (line 210
skips each of them). -/
theorem topLoop_all_skipped (m : Int) :
    ∀ (d : List Node) (rt : List TagInfo) (cur : String) (acc : List String),
      (∀ n ∈ d, pyStrip (serialize n) = "") →
      topLoop m d rt cur acc = .ok (if cur = "" then acc else acc ++ [cur]) := by
  intro d
  induction d with
  | nil => intro rt cur acc _; rfl
  | cons n rest ih =>
    intro rt cur acc h
    have hn := h n (by simp)
    have hrest : ∀ n' ∈ rest, pyStrip (serialize n') = "" := fun n' hn' => h n' (by simp [hn'])
    cases n with
    | text s => rw [topLoop, if_pos hn]; exact ih rt cur acc hrest
    | element name attrs cc => rw [topLoop, if_pos hn]; exact ih rt cur acc hrest

/-- C9.  Empty or whitespace-only input yields an empty sequence: when every
top-level node of the parsed document serializes to a string that strips to
empty (which is the parse of an empty or whitespace-only source), the
generator yields no fragments. -/
theorem splitMessage_whitespace_empty (m : Int) (d : List Node)
    (h : ∀ n ∈ d, pyStrip (serialize n) = "") : splitMessage m d = .ok [] := by
  rw [splitMessage, topLoop_all_skipped m d [] "" [] h]
  rfl

/-- C9, witness: on the whitespace-only document `[text "  \n\t "]` with
`max_len = 30`, the hypothesis holds and `split_message` yields nothing. -/
theorem splitMessage_whitespace_empty_witness :
    (∀ n ∈ [Node.text "  \n\t "], pyStrip (serialize n) = "") ∧
    splitMessage 30 [Node.text "  \n\t "] = .ok [] := by
  refine ⟨by decide, splitMessage_whitespace_empty 30 [Node.text "  \n\t "] (by decide)⟩

theorem pyRstrip_append_space {w : String} (h : ∀ c ∈ w.data, isSpace c = false) :
    pyRstrip (w ++ " ") = w := by
  apply strEq_of_data
  show ((w ++ " ").data.reverse.dropWhile isSpace).reverse = w.data
  have h1 : (w ++ " ").data.reverse = ' ' :: w.data.reverse := by
    rw [String.data_append]
    simp
  rw [h1, List.dropWhile_cons]
  have h2 : isSpace ' ' = true := rfl
  rw [h2]
  simp only [if_true]
  rw [dropWhile_eq_self_of_all (fun c hc => h c (by rwa [List.mem_reverse] at hc)),
    List.reverse_reverse]

theorem strLength_append_int (a b : String) :
    ((a ++ b).length : Int) = (a.length : Int) + (b.length : Int) := by
  rw [String.length_append]
  push_cast
  ring

/-- C1.  Lemma: the greedy word loop, fed words that are whitespace-free and
individually at most `limit` long, emits only chunks of length at most
`limit`, and leaves an accumulator that is empty or at most `limit` once
right-stripped. -/
theorem greedyWords_len (limit : Int) :
    ∀ (ws : List String) (cur : String),
      (∀ w ∈ ws, (∀ c ∈ w.data, isSpace c = false) ∧ (w.length : Int) ≤ limit) →
      (cur = "" ∨ ((pyRstrip cur).length : Int) ≤ limit) →
      (∀ ch ∈ (greedyWords limit ws cur).1, (ch.length : Int) ≤ limit) ∧
      ((greedyWords limit ws cur).2 = "" ∨
        ((pyRstrip (greedyWords limit ws cur).2).length : Int) ≤ limit) := by
  intro ws
  induction ws with
  | nil =>
    intro cur _ hcur
    rw [greedyWords]
    exact ⟨fun ch hch => absurd hch (by simp), hcur⟩
  | cons w ws ih =>
    intro cur hws hcur
    rw [greedyWords]
    have hwhead := hws w (by simp)
    have hwtail : ∀ w' ∈ ws, (∀ c ∈ w'.data, isSpace c = false) ∧ (w'.length : Int) ≤ limit :=
      fun w' hw' => hws w' (by simp [hw'])
    by_cases hfit : (cur.length + w.length + 1 : Int) ≤ limit
    · rw [if_pos hfit]
      refine ih (cur ++ w ++ " ") hwtail (Or.inr ?_)
      calc ((pyRstrip (cur ++ w ++ " ")).length : Int)
          ≤ ((cur ++ w ++ " ").length : Int) := by exact_mod_cast pyRstrip_length_le _
        _ = (cur.length : Int) + (w.length : Int) + 1 := by
            rw [strLength_append_int, strLength_append_int]; rfl
        _ ≤ limit := hfit
    · rw [if_neg hfit]
      have hnew : (w ++ " " = "") ∨ ((pyRstrip (w ++ " ")).length : Int) ≤ limit := by
        right
        rw [pyRstrip_append_space hwhead.1]
        exact hwhead.2
      have hrest := ih (w ++ " ") hwtail hnew
      by_cases hc : cur = ""
      · rw [if_pos hc]
        exact hrest
      · rw [if_neg hc]
        refine ⟨?_, hrest.2⟩
        intro ch hch
        rcases List.mem_cons.mp hch with rfl | hmem
        · rcases hcur with h1 | h1
          · exact absurd h1 hc
          · exact h1
        · exact hrest.1 ch hmem

/-- C1.  Lemma: the top-level merge loop preserves the length bound: if every
incoming fragment, the pending accumulator, and every yielded fragment are at
most `max_len`, so is everything after the merge. -/
theorem mergeFrags_len (m : Int) :
    ∀ (fs : List String) (cur : String) (acc : List String),
      (∀ f ∈ fs, (f.length : Int) ≤ m) →
      (cur = "" ∨ (cur.length : Int) ≤ m) →
      (∀ f ∈ acc, (f.length : Int) ≤ m) →
      (∀ f ∈ (mergeFrags m fs cur acc).1, (f.length : Int) ≤ m) ∧
      ((mergeFrags m fs cur acc).2 = "" ∨ ((mergeFrags m fs cur acc).2.length : Int) ≤ m) := by
  intro fs
  induction fs with
  | nil =>
    intro cur acc _ hcur hacc
    rw [mergeFrags]
    exact ⟨hacc, hcur⟩
  | cons f fs ih =>
    intro cur acc hfs hcur hacc
    rw [mergeFrags]
    have hfhead := hfs f (by simp)
    have hftail : ∀ f' ∈ fs, ((f'.length : Int) ≤ m) := fun f' hf' => hfs f' (by simp [hf'])
    by_cases hfit : (cur.length + f.length : Int) ≤ m
    · rw [if_pos hfit]
      refine ih (cur ++ f) acc hftail (Or.inr ?_) hacc
      rw [strLength_append_int]
      exact hfit
    · rw [if_neg hfit]
      by_cases hc : cur = ""
      · rw [if_pos hc]
        exact ih f acc hftail (Or.inr hfhead) hacc
      · rw [if_neg hc]
        refine ih f (acc ++ [cur]) hftail (Or.inr hfhead) ?_
        intro g hg
        rcases List.mem_append.mp hg with hmem | hmem
        · exact hacc g hmem
        · rcases List.mem_singleton.mp hmem with rfl
          rcases hcur with h1 | h1
          · exact absurd h1 hc
          · exact h1

/-- C1.  Lemma: on a top-level node that fits flat (`flatFits`),
`process_element` succeeds and every fragment it returns is at most
`max_len` long. -/
theorem processElement_flat_len {m : Int} {pt : List TagInfo} {n : Node}
    (hf : flatFits m n = true) :
    ∃ out, processElement m pt n = .ok out ∧ ∀ f ∈ out, (f.length : Int) ≤ m := by
  match n with
  | .text s =>
    rw [flatFits] at hf
    have hw : ∀ w ∈ pyWords (pyStrip s), (w.length : Int) ≤ m := by
      intro w hwm
      have := List.all_eq_true.mp hf w hwm
      exact of_decide_eq_true this
    rw [processElement]
    by_cases h0 : pyStrip s = ""
    · rw [if_pos h0]
      exact ⟨[], rfl, by simp⟩
    · rw [if_neg h0]
      by_cases h1 : ((pyStrip s).length : Int) ≤ m
      · rw [if_pos h1]
        refine ⟨[pyStrip s], rfl, ?_⟩
        intro f hfm
        rcases List.mem_singleton.mp hfm with rfl
        exact h1
      · rw [if_neg h1]
        have hgw := greedyWords_len m (pyWords (pyStrip s)) ""
          (fun w hwm => ⟨(pyWords_sound w hwm).2, hw w hwm⟩) (Or.inl rfl)
        refine ⟨_, rfl, ?_⟩
        intro f hfm
        rcases List.mem_append.mp hfm with hmem | hmem
        · exact hgw.1 f hmem
        · by_cases h2 : (greedyWords m (pyWords (pyStrip s)) "").2 = ""
          · rw [if_pos h2] at hmem
            cases hmem
          · rw [if_neg h2] at hmem
            rcases List.mem_singleton.mp hmem with rfl
            rcases hgw.2 with h3 | h3
            · exact absurd h3 h2
            · exact h3
  | .element name attrs cs =>
    rw [flatFits] at hf
    have hlen : ((serialize (.element name attrs cs)).length : Int) ≤ m :=
      of_decide_eq_true hf
    rw [processElement]
    by_cases ha : name ∈ atomicNames
    · rw [if_pos ha, if_neg (by omega)]
      refine ⟨[serialize (.element name attrs cs)], rfl, ?_⟩
      intro f hfm
      rcases List.mem_singleton.mp hfm with rfl
      exact hlen
    · rw [if_neg ha, if_pos hlen]
      refine ⟨[serialize (.element name attrs cs)], rfl, ?_⟩
      intro f hfm
      rcases List.mem_singleton.mp hfm with rfl
      exact hlen

/-- C1.  Lemma: the top-level loop keeps every yielded fragment within
`max_len` when every remaining node fits flat and the state already satisfies
the bound. -/
theorem topLoop_flat_len (m : Int) :
    ∀ (d : List Node) (rt : List TagInfo) (cur : String) (acc : List String)
      (frags : List String),
      (∀ n ∈ d, flatFits m n = true) →
      (cur = "" ∨ (cur.length : Int) ≤ m) →
      (∀ f ∈ acc, (f.length : Int) ≤ m) →
      topLoop m d rt cur acc = .ok frags →
      ∀ f ∈ frags, (f.length : Int) ≤ m := by
  intro d
  induction d with
  | nil =>
    intro rt cur acc frags _ hcur hacc heq
    rw [topLoop] at heq
    by_cases hc : cur = ""
    · rw [if_pos hc] at heq
      cases heq
      exact hacc
    · rw [if_neg hc] at heq
      cases heq
      intro f hfm
      rcases List.mem_append.mp hfm with hmem | hmem
      · exact hacc f hmem
      · rcases List.mem_singleton.mp hmem with rfl
        rcases hcur with h1 | h1
        · exact absurd h1 hc
        · exact h1
  | cons n rest ih =>
    intro rt cur acc frags hflat hcur hacc heq
    have hrest : ∀ n' ∈ rest, flatFits m n' = true := fun n' hn' => hflat n' (by simp [hn'])
    cases n with
    | text s =>
      rw [topLoop] at heq
      by_cases hskip : pyStrip (serialize (.text s)) = ""
      · rw [if_pos hskip] at heq
        exact ih rt cur acc frags hrest hcur hacc heq
      · rw [if_neg hskip] at heq
        obtain ⟨out, hout, houtlen⟩ :=
          @processElement_flat_len m rt (.text s) (hflat (.text s) (by simp))
        rw [hout] at heq
        have hm := mergeFrags_len m out cur acc houtlen hcur hacc
        exact ih _ _ _ frags hrest hm.2 hm.1 heq
    | element name attrs cc =>
      rw [topLoop] at heq
      by_cases hskip : pyStrip (serialize (.element name attrs cc)) = ""
      · rw [if_pos hskip] at heq
        exact ih rt cur acc frags hrest hcur hacc heq
      · rw [if_neg hskip] at heq
        obtain ⟨out, hout, houtlen⟩ :=
          @processElement_flat_len m [(name, attrs)] (.element name attrs cc)
            (hflat (.element name attrs cc) (by simp))
        rw [hout] at heq
        have hm := mergeFrags_len m out cur acc houtlen hcur hacc
        exact ih _ _ _ frags hrest hm.2 hm.1 heq

/-- C1, amended claim.  For flat documents — every top-level element node's
full serialization fits `max_len`, and every word of every top-level text
node is at most `max_len` long — every yielded fragment has length at most
`max_len`.  (Without the flatness proviso the bound fails: see the
counterexample, where an oversized single word is yielded whole, and the
C5/C8 evaluations, where wrapper overhead pushes fragments past the budget.) -/
theorem splitMessage_flat_len (m : Int) (d : List Node) (frags : List String)
    (hflat : ∀ n ∈ d, flatFits m n = true)
    (h : splitMessage m d = .ok frags) :
    ∀ f ∈ frags, (f.length : Int) ≤ m := by
  exact topLoop_flat_len m d [] "" [] frags hflat (Or.inl rfl) (by simp) h

/-- C1, witness for the amended claim: a two-node flat document at
`max_len = 10` yields fragments `aaa bbb` and `<p>x</p>`, both within the
bound. -/
theorem splitMessage_flat_len_witness :
    (∀ n ∈ [Node.text "aaa bbb", Node.element "p" [] [Node.text "x"]],
      flatFits 10 n = true) ∧
    (("aaa bbb" : String).length : Int) ≤ 10 := by
  constructor
  · decide
  · exact splitMessage_flat_len 10 [Node.text "aaa bbb", Node.element "p" [] [Node.text "x"]]
      ["aaa bbb", "<p>x</p>"] (by decide) rfl "aaa bbb" (by simp)

/-- C1, counterexample.  The claim "every yielded fragment has length at most
`max_len`" fails: on the single-word input `aaaaaaaaaaa` (11 characters) with
`max_len = 10`, `split_message` completes without raising and yields that word
as a fragment of length 11 > 10 (the greedy word loop keeps an oversized word
whole, and the top-level merge loop yields it unchecked). -/
theorem splitMessage_oversized_word_cex :
    splitMessage 10 [.text "aaaaaaaaaaa"] = .ok ["aaaaaaaaaaa"] ∧
    (10 : Int) < (("aaaaaaaaaaa" : String).length : Int) := by
  exact ⟨rfl, by decide⟩

/-- C3, code-bug witness.  On input `<p>aaa bbb ccc</p>` with `max_len = 10`
the code completes and yields two fragments, and the word `ccc` of the input
text appears in neither (no fragment contains the character `c` at all): line
172 of `process_element` resets the accumulator after the word loop, dropping
the last chunk of an overflowing text child. -/
theorem splitMessage_loses_word :
    splitMessage 10 [.element "p" [] [.text "aaa bbb ccc"]] =
      .ok ["<p><p>aaa</p></p>", "<p><p>bbb</p></p>"] ∧
    ('c' ∈ ("aaa bbb ccc" : String).data ∧
      'c' ∉ ("<p><p>aaa</p></p>" : String).data ∧
      'c' ∉ ("<p><p>bbb</p></p>" : String).data) := by
  exact ⟨rfl, by decide⟩

/-- C4, counterexample.  The claim's atomic whitelist includes `mention`, but
`is_unsplittable` (line 97) lists only `a, code, b, i, strong, em`: a
`<mention>` element whose serialization (37 characters) exceeds
`max_len = 20` does not raise; it is split, and `split_message` completes
with a fragment. -/
theorem splitMessage_mention_not_atomic_cex :
    splitMessage 20 [.element "mention" [("id", "U1024")] [.text "aaa bbb"]] =
      .ok ["<mention id=\"U1024\"><mention id=\"U1024\">aaa</mention></mention>"] ∧
    (20 : Int) <
      ((serialize (.element "mention" [("id", "U1024")] [.text "aaa bbb"])).length : Int) := by
  refine ⟨rfl, ?_⟩
  show (20 : Int) < ((37 : Nat) : Int)
  decide

/-- C5, code-bug witness.  On `<p>aaa bbb</p>` with `max_len = 7` the wrapper
overhead (14 characters, the stack holding `p` twice) exceeds the budget, so
`available_len = -7 <= 0`; the claim says `MaxLengthError` is raised, but the
code never raises it (the class is defined at lines 19-21 and never used):
it completes and yields one fragment of length 17 > 7. -/
theorem splitMessage_no_maxlength_error :
    splitMessage 7 [.element "p" [] [.text "aaa bbb"]] = .ok ["<p><p>aaa</p></p>"] ∧
    (7 : Int) - ((wrapperStart [("p", []), ("p", [])]).length : Int)
      - ((wrapperEnd [("p", []), ("p", [])]).length : Int) ≤ 0 ∧
    (7 : Int) < (("<p><p>aaa</p></p>" : String).length : Int) := by
  exact ⟨rfl, by decide, by decide⟩

/-- C6, code-bug witness.  `validate_input` rejects a non-positive `max_len`
with `ValueError("max_len must be positive")`, but `split_message` never calls
it: with `max_len = 0` and input `hi`, `split_message` yields the fragment
`hi` and raises nothing. -/
theorem splitMessage_skips_validation :
    validateInput "hi" 0 = .error "max_len must be positive" ∧
    splitMessage 0 [.text "hi"] = .ok ["hi"] := by
  exact ⟨rfl, rfl⟩

theorem strAppend_ne_empty_left {a : String} (b : String) (h : a ≠ "") : a ++ b ≠ "" := by
  intro he
  apply h
  apply strEq_of_data
  have hd : (a ++ b).data = [] := by rw [he]
  rw [String.data_append] at hd
  exact List.append_eq_nil.mp hd |>.1

theorem strEmpty_ne_iff {s : String} : s ≠ "" ↔ s.data ≠ [] := by
  constructor
  · intro h hd
    exact h (strEq_of_data hd)
  · intro h he
    rw [he] at h
    exact h rfl

/-- C7.  Lemma: when every remaining node serializes to a non-padded string
and the pending output plus all remaining serializations fit within `max_len`,
the top-level loop packs everything into one final fragment. -/
theorem topLoop_whole (m : Int) :
    ∀ (d : List Node) (rt : List TagInfo) (cur : String) (acc : List String),
      (∀ n ∈ d, pyStrip (serialize n) = serialize n ∧ serialize n ≠ "") →
      ((cur.length : Int) + ((serializeList d).length : Int) ≤ m) →
      topLoop m d rt cur acc =
        .ok (if cur ++ serializeList d = "" then acc else acc ++ [cur ++ serializeList d]) := by
  intro d
  induction d with
  | nil =>
    intro rt cur acc _ _
    rw [topLoop, serializeList_nil, String.append_empty]
  | cons n rest ih =>
    intro rt cur acc hnodes hlen
    have hn := hnodes n (by simp)
    have hrest : ∀ n' ∈ rest, pyStrip (serialize n') = serialize n' ∧ serialize n' ≠ "" :=
      fun n' hn' => hnodes n' (by simp [hn'])
    have hsplit : ((serialize n).length : Int) + ((serializeList rest).length : Int) =
        ((serializeList (n :: rest)).length : Int) := by
      rw [serializeList_cons, strLength_append_int]
    have hnlen : ((serialize n).length : Int) ≤ m - (cur.length : Int) := by
      have h0 : (0 : Int) ≤ ((serializeList rest).length : Int) := by positivity
      omega
    have hproc : ∀ pt, processElement m pt n = .ok [serialize n] := by
      intro pt
      cases n with
      | text s =>
        have hs : serialize (.text s) = s := rfl
        rw [hs] at hn hnlen
        have hslen : (0 : Int) ≤ (cur.length : Int) := by positivity
        rw [processElement]
        simp only
        rw [hn.1, if_neg hn.2, if_pos (by omega)]
        rfl
      | element name attrs cc =>
        have hlen2 : ((serialize (.element name attrs cc)).length : Int) ≤ m := by
          have h0 : (0 : Int) ≤ (cur.length : Int) := by positivity
          omega
        rw [processElement]
        by_cases ha : name ∈ atomicNames
        · rw [if_pos ha, if_neg (by omega)]
        · rw [if_neg ha, if_pos hlen2]
    have hmerge : mergeFrags m [serialize n] cur acc = (acc, cur ++ serialize n) := by
      rw [mergeFrags, if_pos (by omega), mergeFrags]
    cases n with
    | text s =>
      rw [topLoop, if_neg (by rw [hn.1]; exact hn.2), hproc rt]
      dsimp only
      rw [hmerge]
      rw [ih rt (cur ++ serialize (.text s)) acc hrest
        (by rw [strLength_append_int]; omega)]
      rw [serializeList_cons, ← String.append_assoc]
    | element name attrs cc =>
      rw [topLoop, if_neg (by rw [hn.1]; exact hn.2), hproc [(name, attrs)]]
      dsimp only
      rw [hmerge]
      rw [ih [(name, attrs)] (cur ++ serialize (.element name attrs cc)) acc hrest
        (by rw [strLength_append_int]; omega)]
      rw [serializeList_cons, ← String.append_assoc]

/-- C7, amended claim.  Re-fragmenting an already-yielded fragment whose
length is at most `max_len` yields exactly one fragment equal to itself:
modelled on the parsed side, a non-empty document whose nodes serialize
without surrounding whitespace (which is true of the parse of every yielded
fragment) and whose total serialization fits `max_len` re-fragments to
exactly that one string.  Yielded fragments longer than `max_len` — which
the code does produce — may re-fragment differently (see the
counterexample, where one re-fragments to the empty sequence). -/
theorem splitMessage_refragment_whole (m : Int) (d : List Node) (hne : d ≠ [])
    (hnodes : ∀ n ∈ d, pyStrip (serialize n) = serialize n ∧ serialize n ≠ "")
    (hlen : ((serializeList d).length : Int) ≤ m) :
    splitMessage m d = .ok [serializeList d] := by
  rw [splitMessage, topLoop_whole m d [] "" [] hnodes (by simpa using hlen)]
  cases d with
  | nil => exact absurd rfl hne
  | cons n rest =>
    rw [String.empty_append, serializeList_cons,
      if_neg (strAppend_ne_empty_left _ (hnodes n (by simp)).2)]
    rfl

/-- C7, witness for the amended claim: the document parsed from
`<p>hi</p>yo` (a shape every yielded fragment has) with `max_len = 30`
re-fragments to exactly one fragment equal to its serialization. -/
theorem splitMessage_refragment_whole_witness :
    splitMessage 30 [Node.element "p" [] [Node.text "hi"], Node.text "yo"] =
      .ok ["<p>hi</p>yo"] := by
  have h := splitMessage_refragment_whole 30
    [Node.element "p" [] [Node.text "hi"], Node.text "yo"]
    (by simp) (by decide) (by decide)
  simpa using h

/-- C7, counterexample.  On `<p>ccc ddd</p>` with `max_len = 7`,
`split_message` yields the single fragment `<p><p>ccc</p></p>`; re-running
`split_message` on that fragment (which parses to a `p` element containing a
`p` element containing `ccc`) with the same `max_len` yields the empty
sequence, not one fragment equal to itself. -/
theorem splitMessage_not_idempotent_cex :
    splitMessage 7 [.element "p" [] [.text "ccc ddd"]] = .ok ["<p><p>ccc</p></p>"] ∧
    splitMessage 7 [.element "p" [] [.element "p" [] [.text "ccc"]]] = .ok [] := by
  exact ⟨rfl, rfl⟩

/-- C8, counterexample.  On `<div>aaa bbb ccc ddd</div>` with `max_len = 25`,
the first yielded fragment contains the opening tag `<div>` of the same
ancestor twice: the top level passes `[element]` as the element's own
`parent_tags` (line 214) and the splitting level appends the element again
(line 131), so the wrapper is applied twice. -/
theorem splitMessage_double_wrap_cex :
    splitMessage 25 [.element "div" [] [.text "aaa bbb ccc ddd"]] =
      .ok ["<div><div>aaa</div></div>", "<div><div>bbb</div></div>",
           "<div><div>ccc</div></div>"] ∧
    countOccur ("<div>" : String).data ("<div><div>aaa</div></div>" : String).data = 2 := by
  exact ⟨rfl, by decide⟩

/-- C8, amended claim.  Wrapping is not applied exactly once per fragment:
there are inputs (here `<div>aaa bbb</div>` with `max_len = 16`) whose yielded
fragment carries the same ancestor's opening and closing tags twice, because
the top level seeds the stack with the root element itself and the splitting
level pushes it again. -/
theorem splitMessage_wraps_twice :
    splitMessage 16 [.element "div" [] [.text "aaa bbb"]] =
      .ok ["<div><div>aaa</div></div>"] ∧
    countOccur ("<div>" : String).data ("<div><div>aaa</div></div>" : String).data = 2 ∧
    countOccur ("</div>" : String).data ("<div><div>aaa</div></div>" : String).data = 2 := by
  exact ⟨rfl, by decide, by decide⟩

/-! Machinery for C10: every fragment contains a non-whitespace character. -/

theorem hasInk_append_left {a : String} (b : String) (h : hasInk a) : hasInk (a ++ b) := by
  obtain ⟨c, hc, hcs⟩ := h
  exact ⟨c, by rw [String.data_append]; exact List.mem_append.mpr (Or.inl hc), hcs⟩

theorem hasInk_append_right (a : String) {b : String} (h : hasInk b) : hasInk (a ++ b) := by
  obtain ⟨c, hc, hcs⟩ := h
  exact ⟨c, by rw [String.data_append]; exact List.mem_append.mpr (Or.inr hc), hcs⟩

theorem hasInk_ne_empty {s : String} (h : hasInk s) : s ≠ "" := by
  obtain ⟨c, hc, _⟩ := h
  intro he
  rw [he] at hc
  cases hc

theorem openTag_ink (n : String) (a : List (String × String)) : hasInk (openTag n a) := by
  refine ⟨'<', ?_, rfl⟩
  rw [openTag_data]
  simp

theorem wrapperStart_ink {ctags : List TagInfo} (h : ctags ≠ []) :
    hasInk (wrapperStart ctags) := by
  cases ctags with
  | nil => exact absurd rfl h
  | cons t ts =>
    rw [wrapperStart]
    exact hasInk_append_left _ (openTag_ink t.1 t.2)

theorem hasInk_of_word {w : String} (hne : w ≠ "") (hns : ∀ c ∈ w.data, isSpace c = false) :
    hasInk w := by
  obtain ⟨c, hc⟩ := List.exists_mem_of_ne_nil w.data (strEmpty_ne_iff.mp hne)
  exact ⟨c, hc, hns c hc⟩

theorem hasInk_pyRstrip {s : String} (h : hasInk s) : hasInk (pyRstrip s) := by
  obtain ⟨c, hc, hcs⟩ := h
  exact ⟨c, mem_pyRstrip hc hcs, hcs⟩

/-- C10.  Lemma: the greedy word loop emits only chunks with ink, and its
final accumulator is empty or has ink, when fed the non-empty whitespace-free
words that `pyWords` produces. -/
theorem greedyWords_ink (limit : Int) :
    ∀ (ws : List String) (cur : String),
      (∀ w ∈ ws, w ≠ "" ∧ ∀ c ∈ w.data, isSpace c = false) →
      (cur = "" ∨ hasInk cur) →
      (∀ ch ∈ (greedyWords limit ws cur).1, hasInk ch) ∧
      ((greedyWords limit ws cur).2 = "" ∨ hasInk (greedyWords limit ws cur).2) := by
  intro ws
  induction ws with
  | nil =>
    intro cur _ hcur
    rw [greedyWords]
    exact ⟨fun ch hch => absurd hch (by simp), hcur⟩
  | cons w ws ih =>
    intro cur hws hcur
    rw [greedyWords]
    have hwhead := hws w (by simp)
    have hwink : hasInk w := hasInk_of_word hwhead.1 hwhead.2
    have hwtail : ∀ w' ∈ ws, w' ≠ "" ∧ ∀ c ∈ w'.data, isSpace c = false :=
      fun w' hw' => hws w' (by simp [hw'])
    by_cases hfit : (cur.length + w.length + 1 : Int) ≤ limit
    · rw [if_pos hfit]
      refine ih (cur ++ w ++ " ") hwtail (Or.inr ?_)
      exact hasInk_append_left _ (hasInk_append_right _ hwink)
    · rw [if_neg hfit]
      have hnew : (w ++ " " = "") ∨ hasInk (w ++ " ") :=
        Or.inr (hasInk_append_left _ hwink)
      have hrest := ih (w ++ " ") hwtail hnew
      by_cases hc : cur = ""
      · rw [if_pos hc]
        exact hrest
      · rw [if_neg hc]
        refine ⟨?_, hrest.2⟩
        intro ch hch
        rcases List.mem_cons.mp hch with rfl | hmem
        · rcases hcur with h1 | h1
          · exact absurd h1 hc
          · exact hasInk_pyRstrip h1
        · exact hrest.1 ch hmem

/-- C10.  Lemma: `pushChildFrags` only ever appends wrapped strings, whose
ink comes from the wrapper prefix. -/
theorem pushChildFrags_ink {m : Int} {ws we : String} {allParts : List String}
    (hws : hasInk ws) :
    ∀ (fs : List String) (frags : List String),
      (∀ f ∈ frags, hasInk f) →
      ∀ f ∈ pushChildFrags m ws we allParts fs frags, hasInk f := by
  intro fs
  induction fs with
  | nil =>
    intro frags hfr f hf
    rw [pushChildFrags] at hf
    exact hfr f hf
  | cons g gs ih =>
    intro frags hfr f hf
    rw [pushChildFrags] at hf
    by_cases hfit : ((ws ++ g ++ we).length : Int) ≤ m
    · rw [if_pos hfit] at hf
      refine ih _ ?_ f hf
      intro f' hf'
      rcases List.mem_append.mp hf' with hmem | hmem
      · exact hfr f' hmem
      · rcases List.mem_singleton.mp hmem with rfl
        exact hasInk_append_left _ (hasInk_append_left _ hws)
    · rw [if_neg hfit] at hf
      refine ih _ ?_ f hf
      intro f' hf'
      rcases List.mem_append.mp hf' with hmem | hmem
      · exact hfr f' hmem
      · obtain ⟨p, _, rfl⟩ := List.mem_map.mp hmem
        exact hasInk_append_left _ (hasInk_append_left _ hws)

/-- C10.  Lemma: the children loop only appends fragments with ink, given a
wrapper prefix with ink. -/
theorem processChildren_ink (m : Int) (ws we : String) (avail : Int) (ctags : List TagInfo)
    (hws : hasInk ws) :
    ∀ (cs : List Node) (frags : List String) (cur : String) (res : List String × String),
      processChildren m ws we avail ctags cs frags cur = .ok res →
      (∀ f ∈ frags, hasInk f) →
      ∀ f ∈ res.1, hasInk f
  | [], frags, cur, res, heq, hfr => by
    rw [processChildren] at heq
    cases heq
    exact hfr
  | c :: rest, frags, cur, res, heq, hfr => by
    rw [processChildren] at heq
    by_cases hskip : pyStrip (serialize c) = ""
    · rw [if_pos hskip] at heq
      exact processChildren_ink m ws we avail ctags hws rest frags cur res heq hfr
    · rw [if_neg hskip] at heq
      by_cases hfit : (cur.length + (pyStrip (serialize c)).length : Int) ≤ avail
      · rw [if_pos hfit] at heq
        exact processChildren_ink m ws we avail ctags hws rest frags _ res heq hfr
      · rw [if_neg hfit] at heq
        have hfr1 : ∀ f ∈ (if cur = "" then frags else frags ++ [ws ++ cur ++ we]),
            hasInk f := by
          by_cases hc : cur = ""
          · rw [if_pos hc]; exact hfr
          · rw [if_neg hc]
            intro f hf
            rcases List.mem_append.mp hf with hmem | hmem
            · exact hfr f hmem
            · rcases List.mem_singleton.mp hmem with rfl
              exact hasInk_append_left _ (hasInk_append_left _ hws)
        cases c with
        | element cn ca cc =>
          dsimp only at heq
          cases hpe : processElement m ctags (.element cn ca cc) with
          | error e => rw [hpe] at heq; cases heq
          | ok childFrags =>
            rw [hpe] at heq
            dsimp only at heq
            exact processChildren_ink m ws we avail ctags hws rest _ "" res heq
              (pushChildFrags_ink hws childFrags _ hfr1)
        | text ts =>
          dsimp only at heq
          exact processChildren_ink m ws we avail ctags hws rest _ "" res heq (by
            intro f hf
            rcases List.mem_append.mp hf with hmem | hmem
            · exact hfr1 f hmem
            · obtain ⟨p, _, rfl⟩ := List.mem_map.mp hmem
              exact hasInk_append_left _ (hasInk_append_left _ hws))
  termination_by structural cs => cs

/-- C10.  Lemma: every fragment `process_element` returns has ink: kept-whole
elements contain `<`, text chunks are built from non-empty words, and wrapped
fragments contain the wrapper's opening tag. -/
theorem processElement_ink (m : Int) (pt : List TagInfo) :
    ∀ (n : Node) (out : List String), processElement m pt n = .ok out →
      ∀ f ∈ out, hasInk f
  | .text s, out, heq => by
    rw [processElement] at heq
    by_cases h0 : pyStrip s = ""
    · rw [if_pos h0] at heq
      cases heq
      intro f hf
      cases hf
    · rw [if_neg h0] at heq
      by_cases h1 : ((pyStrip s).length : Int) ≤ m
      · rw [if_pos h1] at heq
        cases heq
        intro f hf
        rcases List.mem_singleton.mp hf with rfl
        exact pyStrip_ink h0
      · rw [if_neg h1] at heq
        cases heq
        intro f hf
        have hg := greedyWords_ink m (pyWords (pyStrip s)) ""
          (fun w hw => (pyWords_sound w hw)) (Or.inl rfl)
        rcases List.mem_append.mp hf with hmem | hmem
        · exact hg.1 f hmem
        · by_cases h2 : (greedyWords m (pyWords (pyStrip s)) "").2 = ""
          · rw [if_pos h2] at hmem
            cases hmem
          · rw [if_neg h2] at hmem
            rcases List.mem_singleton.mp hmem with rfl
            rcases hg.2 with h3 | h3
            · exact absurd h3 h2
            · exact hasInk_pyRstrip h3
  | .element name attrs cs, out, heq => by
    rw [processElement] at heq
    by_cases ha : name ∈ atomicNames
    · rw [if_pos ha] at heq
      by_cases h1 : m < ((serialize (.element name attrs cs)).length : Int)
      · rw [if_pos h1] at heq
        cases heq
      · rw [if_neg h1] at heq
        cases heq
        intro f hf
        rcases List.mem_singleton.mp hf with rfl
        exact serialize_element_ink name attrs cs
    · rw [if_neg ha] at heq
      by_cases h1 : ((serialize (.element name attrs cs)).length : Int) ≤ m
      · rw [if_pos h1] at heq
        cases heq
        intro f hf
        rcases List.mem_singleton.mp hf with rfl
        exact serialize_element_ink name attrs cs
      · rw [if_neg h1] at heq
        dsimp only at heq
        have hws : hasInk (wrapperStart (pt ++ [(name, attrs)])) :=
          wrapperStart_ink (by simp)
        cases hpc : processChildren m (wrapperStart (pt ++ [(name, attrs)]))
            (wrapperEnd (pt ++ [(name, attrs)]))
            (m - ((wrapperStart (pt ++ [(name, attrs)])).length : Int)
              - ((wrapperEnd (pt ++ [(name, attrs)])).length : Int))
            (pt ++ [(name, attrs)]) cs [] "" with
        | error e => rw [hpc] at heq; cases heq
        | ok res =>
          rw [hpc] at heq
          dsimp only at heq
          have hfr := processChildren_ink m _ _ _ _ hws cs [] "" res hpc
            (fun f hf => absurd hf (by simp))
          cases heq
          intro f hf
          by_cases hc : res.2 = ""
          · rw [if_pos hc] at hf
            exact hfr f hf
          · rw [if_neg hc] at hf
            rcases List.mem_append.mp hf with hmem | hmem
            · exact hfr f hmem
            · rcases List.mem_singleton.mp hmem with rfl
              exact hasInk_append_left _ (hasInk_append_left _ hws)


/-- C10.  Lemma: the top-level merge keeps ink: every yielded fragment and
the pending accumulator stay non-blank. -/
theorem mergeFrags_ink (m : Int) :
    ∀ (fs : List String) (cur : String) (acc : List String),
      (∀ f ∈ fs, hasInk f) →
      (cur = "" ∨ hasInk cur) →
      (∀ f ∈ acc, hasInk f) →
      (∀ f ∈ (mergeFrags m fs cur acc).1, hasInk f) ∧
      ((mergeFrags m fs cur acc).2 = "" ∨ hasInk (mergeFrags m fs cur acc).2) := by
  intro fs
  induction fs with
  | nil =>
    intro cur acc _ hcur hacc
    rw [mergeFrags]
    exact ⟨hacc, hcur⟩
  | cons f fs ih =>
    intro cur acc hfs hcur hacc
    rw [mergeFrags]
    have hfhead := hfs f (by simp)
    have hftail : ∀ f' ∈ fs, hasInk f' := fun f' hf' => hfs f' (by simp [hf'])
    by_cases hfit : (cur.length + f.length : Int) ≤ m
    · rw [if_pos hfit]
      refine ih (cur ++ f) acc hftail (Or.inr (hasInk_append_right _ hfhead)) hacc
    · rw [if_neg hfit]
      by_cases hc : cur = ""
      · rw [if_pos hc]
        exact ih f acc hftail (Or.inr hfhead) hacc
      · rw [if_neg hc]
        refine ih f (acc ++ [cur]) hftail (Or.inr hfhead) ?_
        intro g hg
        rcases List.mem_append.mp hg with hmem | hmem
        · exact hacc g hmem
        · rcases List.mem_singleton.mp hmem with rfl
          rcases hcur with h1 | h1
          · exact absurd h1 hc
          · exact h1

/-- C10.  Lemma: the top-level loop only yields fragments with ink. -/
theorem topLoop_ink (m : Int) :
    ∀ (d : List Node) (rt : List TagInfo) (cur : String) (acc : List String)
      (frags : List String),
      (cur = "" ∨ hasInk cur) →
      (∀ f ∈ acc, hasInk f) →
      topLoop m d rt cur acc = .ok frags →
      ∀ f ∈ frags, hasInk f := by
  intro d
  induction d with
  | nil =>
    intro rt cur acc frags hcur hacc heq
    rw [topLoop] at heq
    by_cases hc : cur = ""
    · rw [if_pos hc] at heq
      cases heq
      exact hacc
    · rw [if_neg hc] at heq
      cases heq
      intro f hf
      rcases List.mem_append.mp hf with hmem | hmem
      · exact hacc f hmem
      · rcases List.mem_singleton.mp hmem with rfl
        rcases hcur with h1 | h1
        · exact absurd h1 hc
        · exact h1
  | cons n rest ih =>
    intro rt cur acc frags hcur hacc heq
    cases n with
    | text s =>
      rw [topLoop] at heq
      by_cases hskip : pyStrip (serialize (.text s)) = ""
      · rw [if_pos hskip] at heq
        exact ih rt cur acc frags hcur hacc heq
      · rw [if_neg hskip] at heq
        cases hpe : processElement m rt (.text s) with
        | error e => rw [hpe] at heq; cases heq
        | ok out =>
          rw [hpe] at heq
          have hout := processElement_ink m rt (.text s) out hpe
          have hm := mergeFrags_ink m out cur acc hout hcur hacc
          exact ih rt _ _ frags hm.2 hm.1 heq
    | element name attrs cc =>
      rw [topLoop] at heq
      by_cases hskip : pyStrip (serialize (.element name attrs cc)) = ""
      · rw [if_pos hskip] at heq
        exact ih rt cur acc frags hcur hacc heq
      · rw [if_neg hskip] at heq
        cases hpe : processElement m [(name, attrs)] (.element name attrs cc) with
        | error e => rw [hpe] at heq; cases heq
        | ok out =>
          rw [hpe] at heq
          have hout := processElement_ink m [(name, attrs)] (.element name attrs cc) out hpe
          have hm := mergeFrags_ink m out cur acc hout hcur hacc
          exact ih _ _ _ frags hm.2 hm.1 heq

/-- C10.  Every string `split_message` yields is non-empty and contains at
least one non-whitespace character: the generator never yields an empty or
whitespace-only fragment. -/
theorem splitMessage_no_blank_fragments (m : Int) (d : List Node) (frags : List String)
    (h : splitMessage m d = .ok frags) :
    ∀ f ∈ frags, f ≠ "" ∧ hasInk f := by
  intro f hf
  have hink := topLoop_ink m d [] "" [] frags (Or.inl rfl) (by simp) h f hf
  exact ⟨hasInk_ne_empty hink, hink⟩

/-- C10, witness: the document `[text "hi"]` at `max_len = 30` yields the
single fragment `hi`, which is non-empty and has ink. -/
theorem splitMessage_no_blank_fragments_witness :
    ("hi" : String) ≠ "" ∧ hasInk "hi" := by
  exact splitMessage_no_blank_fragments 30 [Node.text "hi"] ["hi"] rfl "hi" (by simp)

/-! Machinery for C4: an oversized atomic element anywhere forces the raise. -/

theorem int_length_nonneg (s : String) : (0 : Int) ≤ (s.length : Int) := Int.ofNat_nonneg _

mutual
/-- C4.  Lemma: a node containing an oversized atomic element is itself longer
than `max_len` once serialized (serialization length is monotone along the
ancestor chain). -/
theorem hasOversizedAtomic_len (m : Int) :
    ∀ (n : Node), hasOversizedAtomic m n = true → m < ((serialize n).length : Int)
  | .text _, h => by rw [hasOversizedAtomic] at h; cases h
  | .element name attrs cs, h => by
    rw [hasOversizedAtomic] at h
    rcases Bool.or_eq_true _ _ |>.mp h with h1 | h1
    · exact of_decide_eq_true (Bool.and_eq_true _ _ |>.mp h1).2
    · have hlist := hasOversizedAtomicList_len m cs h1
      rw [serialize_element_def, strLength_append_int, strLength_append_int]
      have h2 := int_length_nonneg (openTag name attrs)
      have h3 := int_length_nonneg (closeTag name)
      omega
  termination_by structural n => n

/-- C4.  List version of `hasOversizedAtomic_len` over siblings. -/
theorem hasOversizedAtomicList_len (m : Int) :
    ∀ (cs : List Node), hasOversizedAtomicList m cs = true →
      m < ((serializeList cs).length : Int)
  | [], h => by rw [hasOversizedAtomicList] at h; cases h
  | c :: cs, h => by
    rw [hasOversizedAtomicList] at h
    rw [serializeList_cons, strLength_append_int]
    rcases Bool.or_eq_true _ _ |>.mp h with h1 | h1
    · have := hasOversizedAtomic_len m c h1
      have h2 := int_length_nonneg (serializeList cs)
      omega
    · have := hasOversizedAtomicList_len m cs h1
      have h2 := int_length_nonneg (serialize c)
      omega
  termination_by structural l => l
end

/-- C4.  Lemma: a text node never satisfies `hasOversizedAtomic`. -/
theorem hasOversizedAtomic_text (m : Int) (s : String) :
    hasOversizedAtomic m (.text s) = false := by
  rw [hasOversizedAtomic]

mutual
/-- C4.  Lemma: `process_element` raises the unsplittable-content error on
every node that contains (at any depth) an element from the atomic whitelist
whose serialization exceeds `max_len`. -/
theorem processElement_oversized (m : Int) :
    ∀ (pt : List TagInfo) (n : Node), hasOversizedAtomic m n = true →
      processElement m pt n = .error .unsplittable
  | _, .text _, h => by rw [hasOversizedAtomic_text] at h; cases h
  | pt, .element name attrs cs, h => by
    have hlen := hasOversizedAtomic_len m (.element name attrs cs) h
    rw [processElement]
    by_cases ha : name ∈ atomicNames
    · rw [if_pos ha, if_pos hlen]
    · rw [if_neg ha, if_neg (by omega)]
      dsimp only
      have hl : hasOversizedAtomicList m cs = true := by
        rw [hasOversizedAtomic] at h
        rcases Bool.or_eq_true _ _ |>.mp h with h1 | h1
        · exact absurd (of_decide_eq_true (Bool.and_eq_true _ _ |>.mp h1).1) ha
        · exact h1
      have havail : m - ((wrapperStart (pt ++ [(name, attrs)])).length : Int)
          - ((wrapperEnd (pt ++ [(name, attrs)])).length : Int) ≤ m := by
        have h2 := int_length_nonneg (wrapperStart (pt ++ [(name, attrs)]))
        have h3 := int_length_nonneg (wrapperEnd (pt ++ [(name, attrs)]))
        omega
      rw [processChildren_oversized m _ _ _ _ cs [] "" havail hl]
  termination_by structural _pt _n _h => _n

/-- C4.  Lemma: the children loop raises the unsplittable-content error when
some remaining child contains an oversized atomic element, for any state,
provided `available_len` is at most `max_len` (which it always is, the
wrapper overhead being non-negative). -/
theorem processChildren_oversized (m : Int) :
    ∀ (ws we : String) (avail : Int) (ctags : List TagInfo) (cs : List Node)
      (frags : List String) (cur : String), avail ≤ m →
      hasOversizedAtomicList m cs = true →
      processChildren m ws we avail ctags cs frags cur = .error .unsplittable
  | _, _, _, _, [], _, _, _, h => by rw [hasOversizedAtomicList] at h; cases h
  | ws, we, avail, ctags, c :: rest, frags, cur, havail, h => by
    rw [hasOversizedAtomicList] at h
    rw [processChildren]
    cases c with
    | text ts =>
      have hl : hasOversizedAtomicList m rest = true := by
        rcases Bool.or_eq_true _ _ |>.mp h with h1 | h1
        · rw [hasOversizedAtomic_text] at h1; cases h1
        · exact h1
      by_cases hskip : pyStrip (serialize (.text ts)) = ""
      · rw [if_pos hskip]
        exact processChildren_oversized m ws we avail ctags rest frags cur havail hl
      · rw [if_neg hskip]
        by_cases hfit : (cur.length + (pyStrip (serialize (.text ts))).length : Int) ≤ avail
        · rw [if_pos hfit]
          exact processChildren_oversized m ws we avail ctags rest frags _ havail hl
        · rw [if_neg hfit]
          dsimp only
          exact processChildren_oversized m ws we avail ctags rest _ "" havail hl
    | element cn ca cc =>
      by_cases hc : hasOversizedAtomic m (.element cn ca cc) = true
      · have hstrip := serialize_element_strip cn ca cc
        have hne := serialize_element_ne_empty cn ca cc
        rw [if_neg (by rw [hstrip]; exact hne)]
        have hlen := hasOversizedAtomic_len m _ hc
        have hcur := int_length_nonneg cur
        rw [if_neg (by rw [hstrip]; omega)]
        dsimp only
        rw [processElement_oversized m ctags _ hc]
      · have hl : hasOversizedAtomicList m rest = true := by
          rcases Bool.or_eq_true _ _ |>.mp h with h1 | h1
          · exact absurd h1 hc
          · exact h1
        by_cases hskip : pyStrip (serialize (.element cn ca cc)) = ""
        · rw [if_pos hskip]
          exact processChildren_oversized m ws we avail ctags rest frags cur havail hl
        · rw [if_neg hskip]
          by_cases hfit :
              (cur.length + (pyStrip (serialize (.element cn ca cc))).length : Int) ≤ avail
          · rw [if_pos hfit]
            exact processChildren_oversized m ws we avail ctags rest frags _ havail hl
          · rw [if_neg hfit]
            dsimp only
            cases hpe : processElement m ctags (.element cn ca cc) with
            | error e =>
              cases e
              rfl
            | ok childFrags =>
              dsimp only
              exact processChildren_oversized m ws we avail ctags rest _ "" havail hl
  termination_by structural _w _x _y _z _cs _f _c _d _e => _cs
end

/-- C4.  Lemma: the top-level loop raises the unsplittable-content error when
some remaining top-level node contains an oversized atomic element. -/
theorem topLoop_oversized (m : Int) :
    ∀ (d : List Node) (rt : List TagInfo) (cur : String) (acc : List String),
      hasOversizedAtomicList m d = true →
      topLoop m d rt cur acc = .error .unsplittable := by
  intro d
  induction d with
  | nil => intro rt cur acc h; rw [hasOversizedAtomicList] at h; cases h
  | cons n rest ih =>
    intro rt cur acc h
    rw [hasOversizedAtomicList] at h
    cases n with
    | text ts =>
      have hl : hasOversizedAtomicList m rest = true := by
        rcases Bool.or_eq_true _ _ |>.mp h with h1 | h1
        · rw [hasOversizedAtomic_text] at h1; cases h1
        · exact h1
      rw [topLoop]
      by_cases hskip : pyStrip (serialize (.text ts)) = ""
      · rw [if_pos hskip]
        exact ih rt cur acc hl
      · rw [if_neg hskip]
        cases hpe : processElement m rt (.text ts) with
        | error e => cases e; rfl
        | ok out => dsimp only; exact ih rt _ _ hl
    | element name attrs cc =>
      rw [topLoop]
      by_cases hc : hasOversizedAtomic m (.element name attrs cc) = true
      · have hstrip := serialize_element_strip name attrs cc
        have hne := serialize_element_ne_empty name attrs cc
        rw [if_neg (by rw [hstrip]; exact hne)]
        rw [processElement_oversized m [(name, attrs)] _ hc]
      · have hl : hasOversizedAtomicList m rest = true := by
          rcases Bool.or_eq_true _ _ |>.mp h with h1 | h1
          · exact absurd h1 hc
          · exact h1
        by_cases hskip : pyStrip (serialize (.element name attrs cc)) = ""
        · rw [if_pos hskip]
          exact ih rt cur acc hl
        · rw [if_neg hskip]
          cases hpe : processElement m [(name, attrs)] (.element name attrs cc) with
          | error e => cases e; rfl
          | ok out => dsimp only; exact ih _ _ _ hl

/-- C4, amended claim.  For every input containing an element from the
*code's* atomic whitelist `a, code, b, i, strong, em` (the claim's whitelist
wrongly includes `mention`, see the counterexample) whose full serialized
form is longer than `max_len`, `split_message` raises
`HTMLFragmentationError("Unsplittable element exceeds max_len")` — the base
class with that message, the `UnsplittableElementError` subclass being
defined but never raised — regardless of where the element occurs. -/
theorem splitMessage_oversized_atomic (m : Int) (d : List Node)
    (h : hasOversizedAtomicList m d = true) :
    splitMessage m d = .error .unsplittable :=
  topLoop_oversized m d [] "" [] h

/-- C4, witness for the amended claim: a document with an oversized `<a>`
element nested inside a `<p>` at `max_len = 5` contains an oversized atomic
element and raises. -/
theorem splitMessage_oversized_atomic_witness :
    hasOversizedAtomicList 5
      [Node.element "p" [] [Node.element "a" [("href", "xx")] [Node.text "link text"]]] = true ∧
    splitMessage 5
      [Node.element "p" [] [Node.element "a" [("href", "xx")] [Node.text "link text"]]] =
      .error .unsplittable := by
  exact ⟨by decide, splitMessage_oversized_atomic 5 _ (by decide)⟩

/-! Machinery for C2: every yielded fragment is tag-balanced. -/

theorem tagBalanced_empty : TagBalanced "" := .tagFree "" (by simp)

/-- C2.  Lemma: wrapping a balanced string in the full wrapper stack (opening
tags in order, closing tags reversed) keeps it balanced. -/
theorem tagBalanced_wrapStack (L : List TagInfo) {s : String} (hs : TagBalanced s) :
    TagBalanced (wrapperStart L ++ s ++ wrapperEnd L) := by
  induction L with
  | nil =>
    rw [wrapperStart, wrapperEnd, String.empty_append, String.append_empty]
    exact hs
  | cons t ts ih =>
    rw [wrapperStart, wrapperEnd]
    have heq : (openTag t.1 t.2 ++ wrapperStart ts) ++ s ++ (wrapperEnd ts ++ closeTag t.1)
        = openTag t.1 t.2 ++ (wrapperStart ts ++ s ++ wrapperEnd ts) ++ closeTag t.1 := by
      simp [String.append_assoc]
    rw [heq]
    exact .wrap t.1 t.2 ih

theorem cleanNode_text {s : String} (h : cleanNode (.text s) = true) :
    ∀ c ∈ s.data, c ≠ '<' := by
  rw [cleanNode] at h
  intro c hc
  exact bne_iff_ne.mp (List.all_eq_true.mp h c hc)

theorem cleanNode_element_children {n : String} {a : List (String × String)} {cs : List Node}
    (h : cleanNode (.element n a cs) = true) : cleanList cs = true := by
  rw [cleanNode] at h
  exact (Bool.and_eq_true _ _ |>.mp h).2

theorem cleanList_head {c : Node} {cs : List Node} (h : cleanList (c :: cs) = true) :
    cleanNode c = true := by
  rw [cleanList] at h
  exact (Bool.and_eq_true _ _ |>.mp h).1

theorem cleanList_tail {c : Node} {cs : List Node} (h : cleanList (c :: cs) = true) :
    cleanList cs = true := by
  rw [cleanList] at h
  exact (Bool.and_eq_true _ _ |>.mp h).2

mutual
/-- C2.  Lemma: the serialization of a clean node is tag-balanced. -/
theorem serialize_tagBalanced : ∀ (n : Node), cleanNode n = true → TagBalanced (serialize n)
  | .text s, h => .tagFree s (cleanNode_text h)
  | .element name attrs cs, h => by
    rw [serialize_element_def]
    exact .wrap name attrs (serializeList_tagBalanced cs (cleanNode_element_children h))
  termination_by structural _n _h => _n

/-- C2.  Lemma: the concatenated serialization of clean siblings is
tag-balanced. -/
theorem serializeList_tagBalanced : ∀ (cs : List Node), cleanList cs = true →
    TagBalanced (serializeList cs)
  | [], _ => by rw [serializeList_nil]; exact tagBalanced_empty
  | c :: cs, h => by
    rw [serializeList_cons]
    exact .append (serialize_tagBalanced c (cleanList_head h))
      (serializeList_tagBalanced cs (cleanList_tail h))
  termination_by structural _l _h => _l
end

/-- C2.  Lemma: the greedy word loop preserves any character property that
holds of all word characters and of the space character, both on its emitted
chunks and on its final accumulator. -/
theorem greedyWords_chars {P : Char → Prop} (hsp : P ' ') (limit : Int) :
    ∀ (ws : List String) (cur : String),
      (∀ w ∈ ws, ∀ c ∈ w.data, P c) → (∀ c ∈ cur.data, P c) →
      (∀ ch ∈ (greedyWords limit ws cur).1, ∀ c ∈ ch.data, P c) ∧
      (∀ c ∈ (greedyWords limit ws cur).2.data, P c) := by
  intro ws
  induction ws with
  | nil =>
    intro cur _ hcur
    rw [greedyWords]
    exact ⟨fun ch hch => absurd hch (by simp), hcur⟩
  | cons w ws ih =>
    intro cur hws hcur
    rw [greedyWords]
    have hwhead : ∀ c ∈ w.data, P c := hws w (by simp)
    have hwtail : ∀ w' ∈ ws, ∀ c ∈ w'.data, P c := fun w' hw' => hws w' (by simp [hw'])
    have hgrow : ∀ (pre : String), (∀ c ∈ pre.data, P c) →
        ∀ c ∈ (pre ++ w ++ " ").data, P c := by
      intro pre hpre c hc
      rw [String.data_append, String.data_append] at hc
      rcases List.mem_append.mp hc with hm | hm
      · rcases List.mem_append.mp hm with hm2 | hm2
        · exact hpre c hm2
        · exact hwhead c hm2
      · have : c = ' ' := by simpa using hm
        rw [this]
        exact hsp
    by_cases hfit : (cur.length + w.length + 1 : Int) ≤ limit
    · rw [if_pos hfit]
      exact ih (cur ++ w ++ " ") hwtail (hgrow cur hcur)
    · rw [if_neg hfit]
      have hrest := ih (w ++ " ") hwtail (by
        intro c hc
        have := hgrow "" (by simp)
        apply this
        rwa [String.empty_append])
      by_cases hc : cur = ""
      · rw [if_pos hc]
        exact hrest
      · rw [if_neg hc]
        refine ⟨?_, hrest.2⟩
        intro ch hch
        rcases List.mem_cons.mp hch with rfl | hmem
        · exact fun c hcm => hcur c (mem_of_mem_pyRstrip hcm)
        · exact hrest.1 ch hmem

/-- C2.  Lemma: the stripped serialization of a clean child is tag-balanced
(elements strip to themselves, text strips to a tag-free run). -/
theorem childStr_tagBalanced {c : Node} (hc : cleanNode c = true) :
    TagBalanced (pyStrip (serialize c)) := by
  cases c with
  | text s =>
    exact .tagFree _ (fun ch hch => cleanNode_text hc ch (mem_of_mem_pyStrip hch))
  | element n a cs =>
    rw [serialize_element_strip]
    exact serialize_tagBalanced _ hc

/-- C2.  Lemma: appending a non-empty stripped piece to the accumulator keeps
it balanced with a non-whitespace last character. -/
theorem accum_append {cur cstr : String}
    (hcur : TagBalanced cur ∧ ∀ ch, cur.data.getLast? = some ch → isSpace ch = false)
    (hb : TagBalanced cstr)
    (hlast : ∀ ch, cstr.data.getLast? = some ch → isSpace ch = false)
    (hne : cstr ≠ "") :
    TagBalanced (cur ++ cstr) ∧
      ∀ ch, (cur ++ cstr).data.getLast? = some ch → isSpace ch = false := by
  refine ⟨.append hcur.1 hb, ?_⟩
  intro ch hch
  rw [String.data_append,
    List.getLast?_append_of_ne_nil _ (strEmpty_ne_iff.mp hne)] at hch
  exact hlast ch hch

/-- C2.  Lemma: `pushChildFrags` preserves balance: every string it appends
is a child fragment wrapped in the balanced wrapper pair. -/
theorem pushChildFrags_balanced {m : Int} {ws we : String}
    (hwrap : ∀ {s : String}, TagBalanced s → TagBalanced (ws ++ s ++ we))
    {allParts : List String} (hall : ∀ f ∈ allParts, TagBalanced f) :
    ∀ (fs : List String) (frags : List String),
      (∀ f ∈ fs, TagBalanced f) → (∀ f ∈ frags, TagBalanced f) →
      ∀ f ∈ pushChildFrags m ws we allParts fs frags, TagBalanced f := by
  intro fs
  induction fs with
  | nil =>
    intro frags _ hfr f hf
    rw [pushChildFrags] at hf
    exact hfr f hf
  | cons g gs ih =>
    intro frags hfs hfr f hf
    rw [pushChildFrags] at hf
    have hghead : TagBalanced g := hfs g (by simp)
    have hgtail : ∀ f' ∈ gs, TagBalanced f' := fun f' hf' => hfs f' (by simp [hf'])
    by_cases hfit : ((ws ++ g ++ we).length : Int) ≤ m
    · rw [if_pos hfit] at hf
      refine ih _ hgtail ?_ f hf
      intro f' hf'
      rcases List.mem_append.mp hf' with hmem | hmem
      · exact hfr f' hmem
      · rcases List.mem_singleton.mp hmem with rfl
        exact hwrap hghead
    · rw [if_neg hfit] at hf
      refine ih _ hgtail ?_ f hf
      intro f' hf'
      rcases List.mem_append.mp hf' with hmem | hmem
      · exact hfr f' hmem
      · obtain ⟨p, hp, rfl⟩ := List.mem_map.mp hmem
        exact hwrap (hall p hp)

mutual
/-- C2.  Lemma: on a clean node, every fragment `process_element` returns is
tag-balanced: kept-whole serializations are balanced, text chunks are
tag-free, and split fragments are wrapped in the matched wrapper pair. -/
theorem processElement_balanced (m : Int) :
    ∀ (pt : List TagInfo) (n : Node) (out : List String), cleanNode n = true →
      processElement m pt n = .ok out → ∀ f ∈ out, TagBalanced f
  | _, .text s, out, hcl, heq => by
    rw [processElement] at heq
    have hlt : ∀ c ∈ (pyStrip s).data, c ≠ '<' :=
      fun c hc => cleanNode_text hcl c (mem_of_mem_pyStrip hc)
    by_cases h0 : pyStrip s = ""
    · rw [if_pos h0] at heq
      cases heq
      intro f hf
      cases hf
    · rw [if_neg h0] at heq
      by_cases h1 : ((pyStrip s).length : Int) ≤ m
      · rw [if_pos h1] at heq
        cases heq
        intro f hf
        rcases List.mem_singleton.mp hf with rfl
        exact .tagFree _ hlt
      · rw [if_neg h1] at heq
        cases heq
        have hg := greedyWords_chars (P := fun c => c ≠ '<') (by decide) m
          (pyWords (pyStrip s)) "" (pyWords_chars hlt) (by simp)
        intro f hf
        rcases List.mem_append.mp hf with hmem | hmem
        · exact .tagFree _ (hg.1 f hmem)
        · by_cases h2 : (greedyWords m (pyWords (pyStrip s)) "").2 = ""
          · rw [if_pos h2] at hmem
            cases hmem
          · rw [if_neg h2] at hmem
            rcases List.mem_singleton.mp hmem with rfl
            exact .tagFree _ (fun c hc => hg.2 c (mem_of_mem_pyRstrip hc))
  | pt, .element name attrs cs, out, hcl, heq => by
    rw [processElement] at heq
    by_cases ha : name ∈ atomicNames
    · rw [if_pos ha] at heq
      by_cases h1 : m < ((serialize (.element name attrs cs)).length : Int)
      · rw [if_pos h1] at heq
        cases heq
      · rw [if_neg h1] at heq
        cases heq
        intro f hf
        rcases List.mem_singleton.mp hf with rfl
        exact serialize_tagBalanced _ hcl
    · rw [if_neg ha] at heq
      by_cases h1 : ((serialize (.element name attrs cs)).length : Int) ≤ m
      · rw [if_pos h1] at heq
        cases heq
        intro f hf
        rcases List.mem_singleton.mp hf with rfl
        exact serialize_tagBalanced _ hcl
      · rw [if_neg h1] at heq
        dsimp only at heq
        have hwrap : ∀ {s : String}, TagBalanced s →
            TagBalanced (wrapperStart (pt ++ [(name, attrs)]) ++ s ++
              wrapperEnd (pt ++ [(name, attrs)])) :=
          fun hs => tagBalanced_wrapStack (pt ++ [(name, attrs)]) hs
        cases hpc : processChildren m (wrapperStart (pt ++ [(name, attrs)]))
            (wrapperEnd (pt ++ [(name, attrs)]))
            (m - ((wrapperStart (pt ++ [(name, attrs)])).length : Int)
              - ((wrapperEnd (pt ++ [(name, attrs)])).length : Int))
            (pt ++ [(name, attrs)]) cs [] "" with
        | error e => rw [hpc] at heq; cases heq
        | ok res =>
          rw [hpc] at heq
          dsimp only at heq
          have hres := processChildren_balanced m
            (wrapperStart (pt ++ [(name, attrs)])) (wrapperEnd (pt ++ [(name, attrs)]))
            (m - ((wrapperStart (pt ++ [(name, attrs)])).length : Int)
              - ((wrapperEnd (pt ++ [(name, attrs)])).length : Int))
            (pt ++ [(name, attrs)]) cs [] "" res hwrap
            (cleanNode_element_children hcl)
            (fun f hf => absurd hf (by simp))
            ⟨tagBalanced_empty, by intro ch hch; cases hch⟩ hpc
          cases heq
          intro f hf
          by_cases hc2 : res.2 = ""
          · rw [if_pos hc2] at hf
            exact hres.1 f hf
          · rw [if_neg hc2] at hf
            rcases List.mem_append.mp hf with hmem | hmem
            · exact hres.1 f hmem
            · rcases List.mem_singleton.mp hmem with rfl
              rcases hres.2 with h3 | h3
              · exact absurd h3 hc2
              · rw [pyRstrip_eq_self h3.2]
                exact hwrap h3.1
  termination_by structural _pt _n _o _c _h => _n

/-- C2.  Lemma: the children loop preserves balance of the emitted fragments
and keeps the accumulator balanced with a non-whitespace last character (so
the final `rstrip` at line 175 is the identity). -/
theorem processChildren_balanced (m : Int) :
    ∀ (ws we : String) (avail : Int) (ctags : List TagInfo) (cs : List Node)
      (frags : List String) (cur : String) (res : List String × String),
      (∀ {s : String}, TagBalanced s → TagBalanced (ws ++ s ++ we)) →
      cleanList cs = true →
      (∀ f ∈ frags, TagBalanced f) →
      (TagBalanced cur ∧ ∀ ch, cur.data.getLast? = some ch → isSpace ch = false) →
      processChildren m ws we avail ctags cs frags cur = .ok res →
      (∀ f ∈ res.1, TagBalanced f) ∧
      (res.2 = "" ∨ (TagBalanced res.2 ∧
        ∀ ch, res.2.data.getLast? = some ch → isSpace ch = false))
  | ws, we, avail, ctags, [], frags, cur, res, _, _, hfr, hcur, heq => by
    rw [processChildren] at heq
    cases heq
    exact ⟨hfr, Or.inr hcur⟩
  | ws, we, avail, ctags, c :: rest, frags, cur, res, hwrap, hclean, hfr, hcur, heq => by
    rw [processChildren] at heq
    have hchead := cleanList_head hclean
    have hctail := cleanList_tail hclean
    by_cases hskip : pyStrip (serialize c) = ""
    · rw [if_pos hskip] at heq
      exact processChildren_balanced m ws we avail ctags rest frags cur res
        hwrap hctail hfr hcur heq
    · rw [if_neg hskip] at heq
      by_cases hfit : (cur.length + (pyStrip (serialize c)).length : Int) ≤ avail
      · rw [if_pos hfit] at heq
        exact processChildren_balanced m ws we avail ctags rest frags _ res
          hwrap hctail hfr
          (accum_append hcur (childStr_tagBalanced hchead)
            (fun ch hch => pyStrip_getLast_false hch) hskip) heq
      · rw [if_neg hfit] at heq
        have hfr1 : ∀ f ∈ (if cur = "" then frags else frags ++ [ws ++ cur ++ we]),
            TagBalanced f := by
          by_cases hc2 : cur = ""
          · rw [if_pos hc2]; exact hfr
          · rw [if_neg hc2]
            intro f hf
            rcases List.mem_append.mp hf with hmem | hmem
            · exact hfr f hmem
            · rcases List.mem_singleton.mp hmem with rfl
              exact hwrap hcur.1
        cases c with
        | element cn ca cc =>
          dsimp only at heq
          cases hpe : processElement m ctags (.element cn ca cc) with
          | error e => rw [hpe] at heq; cases heq
          | ok childFrags =>
            rw [hpe] at heq
            dsimp only at heq
            have hcf := processElement_balanced m ctags (.element cn ca cc)
              childFrags hchead hpe
            exact processChildren_balanced m ws we avail ctags rest _ "" res
              hwrap hctail
              (pushChildFrags_balanced hwrap hcf childFrags _ hcf hfr1)
              ⟨tagBalanced_empty, by intro ch hch; cases hch⟩ heq
        | text ts =>
          dsimp only at heq
          have hlt : ∀ ch ∈ (pyStrip (serialize (.text ts))).data, ch ≠ '<' :=
            fun ch hch => cleanNode_text hchead ch (mem_of_mem_pyStrip hch)
          have hg := greedyWords_chars (P := fun ch => ch ≠ '<') (by decide) avail
            (pyWords (pyStrip (serialize (.text ts)))) "" (pyWords_chars hlt) (by simp)
          exact processChildren_balanced m ws we avail ctags rest _ "" res
            hwrap hctail
            (by
              intro f hf
              rcases List.mem_append.mp hf with hmem | hmem
              · exact hfr1 f hmem
              · obtain ⟨p, hp, rfl⟩ := List.mem_map.mp hmem
                exact hwrap (.tagFree _ (hg.1 p hp)))
            ⟨tagBalanced_empty, by intro ch hch; cases hch⟩ heq
  termination_by structural _a _b _c _d _cs _e _f _g _h _i _j _k _l => _cs
end

/-- C2.  Lemma: merging balanced fragments yields balanced fragments and a
balanced pending accumulator. -/
theorem mergeFrags_balanced (m : Int) :
    ∀ (fs : List String) (cur : String) (acc : List String),
      (∀ f ∈ fs, TagBalanced f) → TagBalanced cur → (∀ f ∈ acc, TagBalanced f) →
      (∀ f ∈ (mergeFrags m fs cur acc).1, TagBalanced f) ∧
      TagBalanced (mergeFrags m fs cur acc).2 := by
  intro fs
  induction fs with
  | nil =>
    intro cur acc _ hcur hacc
    rw [mergeFrags]
    exact ⟨hacc, hcur⟩
  | cons f fs ih =>
    intro cur acc hfs hcur hacc
    rw [mergeFrags]
    have hfhead := hfs f (by simp)
    have hftail : ∀ f' ∈ fs, TagBalanced f' := fun f' hf' => hfs f' (by simp [hf'])
    by_cases hfit : (cur.length + f.length : Int) ≤ m
    · rw [if_pos hfit]
      exact ih (cur ++ f) acc hftail (.append hcur hfhead) hacc
    · rw [if_neg hfit]
      by_cases hc : cur = ""
      · rw [if_pos hc]
        exact ih f acc hftail hfhead hacc
      · rw [if_neg hc]
        refine ih f (acc ++ [cur]) hftail hfhead ?_
        intro g hg
        rcases List.mem_append.mp hg with hmem | hmem
        · exact hacc g hmem
        · rcases List.mem_singleton.mp hmem with rfl
          exact hcur

/-- C2.  Lemma: the top-level loop yields only balanced fragments on a clean
document. -/
theorem topLoop_balanced (m : Int) :
    ∀ (d : List Node) (rt : List TagInfo) (cur : String) (acc : List String)
      (frags : List String),
      cleanList d = true →
      TagBalanced cur →
      (∀ f ∈ acc, TagBalanced f) →
      topLoop m d rt cur acc = .ok frags →
      ∀ f ∈ frags, TagBalanced f := by
  intro d
  induction d with
  | nil =>
    intro rt cur acc frags _ hcur hacc heq
    rw [topLoop] at heq
    by_cases hc : cur = ""
    · rw [if_pos hc] at heq
      cases heq
      exact hacc
    · rw [if_neg hc] at heq
      cases heq
      intro f hf
      rcases List.mem_append.mp hf with hmem | hmem
      · exact hacc f hmem
      · rcases List.mem_singleton.mp hmem with rfl
        exact hcur
  | cons n rest ih =>
    intro rt cur acc frags hclean hcur hacc heq
    have hchead := cleanList_head hclean
    have hctail := cleanList_tail hclean
    cases n with
    | text s =>
      rw [topLoop] at heq
      by_cases hskip : pyStrip (serialize (.text s)) = ""
      · rw [if_pos hskip] at heq
        exact ih rt cur acc frags hctail hcur hacc heq
      · rw [if_neg hskip] at heq
        cases hpe : processElement m rt (.text s) with
        | error e => rw [hpe] at heq; cases heq
        | ok out =>
          rw [hpe] at heq
          have hout := processElement_balanced m rt (.text s) out hchead hpe
          have hm := mergeFrags_balanced m out cur acc hout hcur hacc
          exact ih rt _ _ frags hctail hm.2 hm.1 heq
    | element name attrs cc =>
      rw [topLoop] at heq
      by_cases hskip : pyStrip (serialize (.element name attrs cc)) = ""
      · rw [if_pos hskip] at heq
        exact ih rt cur acc frags hctail hcur hacc heq
      · rw [if_neg hskip] at heq
        cases hpe : processElement m [(name, attrs)] (.element name attrs cc) with
        | error e => rw [hpe] at heq; cases heq
        | ok out =>
          rw [hpe] at heq
          have hout := processElement_balanced m [(name, attrs)]
            (.element name attrs cc) out hchead hpe
          have hm := mergeFrags_balanced m out cur acc hout hcur hacc
          exact ih _ _ _ frags hctail hm.2 hm.1 heq

/-- C2.  Every yielded fragment is tag-balanced: on any parsed document that
satisfies the parser contract (text nodes without `<`, names and attributes
without tag delimiters), every string `split_message` yields lies in the Dyck
language of matched tags, so each opening tag in a fragment has its matching
closing tag within that same fragment. -/
theorem splitMessage_tag_balanced (m : Int) (d : List Node) (frags : List String)
    (hclean : cleanList d = true) (h : splitMessage m d = .ok frags) :
    ∀ f ∈ frags, TagBalanced f :=
  topLoop_balanced m d [] "" [] frags hclean tagBalanced_empty (by simp) h

/-- C2, witness: the clean document `<p>First paragraph</p>` at
`max_len = 20` yields the fragment `<p><p>First</p></p>`, which the theorem
shows balanced. -/
theorem splitMessage_tag_balanced_witness :
    cleanList [Node.element "p" [] [Node.text "First paragraph"]] = true ∧
    TagBalanced "<p><p>First</p></p>" := by
  refine ⟨by decide, ?_⟩
  exact splitMessage_tag_balanced 20 [Node.element "p" [] [Node.text "First paragraph"]]
    ["<p><p>First</p></p>"] (by decide) rfl "<p><p>First</p></p>" (by simp)
